import Mathlib

/-!
Verification development for the HowToCook recipe Markdown-to-JSON converter
(src/convert_recipes.py).  The text-extraction engine of the `RecipeParser`
class is embedded shallowly: documents are lists of characters, each Python
helper becomes an executable Lean function, and the regular expressions of
the source are compiled by hand into explicit scans with the exact matching
semantics of Python's `re` module (leftmost match, greedy/non-greedy
repetition, MULTILINE/DOTALL flags) on the character classes they use.

Conventions:
* strings are `List Char` (Python `str` is a sequence of unicode scalars);
* Python `None`-able values are `Option`;
* `float` quantities are modelled as `ℚ`; the numerals appearing in recipe
  quantity strings are short decimals, on which Python's binary `float` and
  `ℚ` agree for the equalities stated below;
* the regex classes `\s` and `\d` are modelled by `isPySpace` (the full
  Unicode white-space set that Python's `str.isspace`/`re` use) and
  `isPyDigit` (restricted to the ASCII and full-width decimal digits, the
  members of the Unicode Nd category that occur in this corpus).
-/

namespace Recipes

/-- Python's white-space set: the characters matched by the regex class
backslash-s (with unicode semantics) and stripped by str.strip(). -/
def isPySpace (c : Char) : Bool :=
  c = ' ' || c = '\t' || c = '\n' || c = '\x0b' || c = '\x0c' || c = '\r' ||
  ('\x1c' ≤ c && c ≤ '\x1f') || c = '\x85' || c = '\xa0' || c = '\u1680' ||
  ('\u2000' ≤ c && c ≤ '\u200a') || c = '\u2028' || c = '\u2029' ||
  c = '\u202f' || c = '\u205f' || c = '\u3000'

/-- ASCII Latin letters, the class [A-Za-z] used by the digit-split lookbehind. -/
def isAsciiLetter (c : Char) : Bool :=
  ('A' ≤ c && c ≤ 'Z') || ('a' ≤ c && c ≤ 'z')

/-- Decimal digits as matched by the regex class backslash-d: ASCII 0-9 and
the full-width digits. -/
def isPyDigit (c : Char) : Bool :=
  ('0' ≤ c && c ≤ '9') || ('０' ≤ c && c ≤ '９')

/-- Numeric value of a digit accepted by `isPyDigit`. -/
def digitVal (c : Char) : Nat :=
  if '0' ≤ c && c ≤ '9' then c.toNat - '0'.toNat else c.toNat - '０'.toNat

/-- Value of a run of decimal digits (most significant first). -/
def digitsToNat (l : List Char) : Nat :=
  l.foldl (fun acc c => 10 * acc + digitVal c) 0

/-- Python str.strip(): remove leading and trailing white-space. -/
def pyStrip (s : List Char) : List Char :=
  ((s.dropWhile isPySpace).reverse.dropWhile isPySpace).reverse

/-- The characters stripped from ingredient names by strip with the three
separator characters (full-width colon, ASCII colon, equals sign). -/
def isColonEq (c : Char) : Bool :=
  c = '：' || c = ':' || c = '='

/-- Python strip with an explicit character set, applied to ingredient names. -/
def stripEdge (s : List Char) : List Char :=
  ((s.dropWhile isColonEq).reverse.dropWhile isColonEq).reverse

/-- Python text.split(sep, 1) for a single-character separator: `none` when the
separator does not occur, otherwise the parts before and after its first
occurrence. -/
def splitFirst (sep : Char) : List Char → Option (List Char × List Char)
  | [] => none
  | c :: rest =>
    if c = sep then some ([], rest)
    else (splitFirst sep rest).map (fun p => (c :: p.1, p.2))

/-- Split a text at every character satisfying `p` (Python re.split with a
character class); separators are dropped. -/
def splitOnPred (p : Char → Bool) : List Char → List (List Char)
  | [] => [[]]
  | c :: rest =>
    if p c then [] :: splitOnPred p rest
    else
      match splitOnPred p rest with
      | [] => [[c]]
      | l :: ls => (c :: l) :: ls

/-- Python text.split of a document into lines at newline characters. -/
def splitLines (s : List Char) : List (List Char) :=
  splitOnPred (fun c => c = '\n') s

/-! ### Parenthetical extractor (`RecipeParser._strip_parenthetical`) -/

/-- ASCII or full-width opening parenthesis. -/
def isOpenParen (c : Char) : Bool := c = '（' || c = '('

/-- ASCII or full-width closing parenthesis. -/
def isCloseParen (c : Char) : Bool := c = '）' || c = ')'

/-- Any of the four parenthesis characters of the stripping pattern. -/
def isParenChar (c : Char) : Bool := isOpenParen c || isCloseParen c

/-- Attempt to match the stripping pattern right after an opening
parenthesis: the greedy run of non-parenthesis characters must be non-empty
and directly followed by a closing parenthesis.  Returns the inner run and
the text after the closer. -/
def spanSplit (rest : List Char) : Option (List Char × List Char) :=
  let run := rest.takeWhile (fun d => !(isParenChar d))
  match rest.drop run.length with
  | d :: tail => if isCloseParen d && !(run.isEmpty) then some (run, tail) else none
  | [] => none

/-- Scan implementing re.sub with the pattern: opening parenthesis, one or
more non-parenthesis characters, closing parenthesis.  As in Python's re.sub
the leftmost match is removed, its stripped inner text collected when
non-empty, and scanning resumes after the match; replaced text is not
rescanned.  The fuel argument (at least the list length at every call, and
consumed once per step while the list shrinks by at least one) makes the
recursion structural so that terms reduce definitionally. -/
def stripParenGo : Nat → List Char → List Char × List (List Char)
  | 0, s => (s, [])
  | _ + 1, [] => ([], [])
  | n + 1, c :: rest =>
    if isOpenParen c then
      match spanSplit rest with
      | some rt =>
        let r := stripParenGo n rt.2
        (r.1, if (pyStrip rt.1).isEmpty then r.2 else pyStrip rt.1 :: r.2)
      | none =>
        let r := stripParenGo n rest
        (c :: r.1, r.2)
    else
      let r := stripParenGo n rest
      (c :: r.1, r.2)

/-- The re.sub scan at its natural fuel. -/
def stripParenAux (s : List Char) : List Char × List (List Char) :=
  stripParenGo s.length s

/-- The parenthetical extractor: cleaned text (stripped) together with the
collected notes. -/
def stripParenthetical (text : List Char) : List Char × List (List Char) :=
  let r := stripParenAux text
  (pyStrip r.1, r.2)

/-! ### Name/quantity splitter (`RecipeParser._split_name_quantity`) -/

/-- The qualitative-quantity keywords (`QUALITATIVE_KEYWORDS`), in source
order. -/
def QUALITATIVE_KEYWORDS : List (List Char) :=
  ["适量".data, "少许".data, "若干".data, "适当".data, "随意".data,
   "按口味".data, "酌情".data, "适量即可".data, "足量".data, "少量".data,
   "充足".data, "适量/按口味".data, "适量（按口味）".data]

/-- The negative-lookbehind test of the digit-split regex: satisfied at the
start of the string and after any character that is not a Latin letter. -/
def prevOK : Option Char → Bool
  | none => true
  | some p => !isAsciiLetter p

/-- Leftmost match of the pattern: a digit (integer or decimal start) not
immediately preceded by a Latin letter.  Returns the index of the first such
digit; `prev` is the character before the current position. -/
def findDigitIdxGo (prev : Option Char) : List Char → Option Nat
  | [] => none
  | c :: rest =>
    if isPyDigit c && prevOK prev then some 0
    else (findDigitIdxGo (some c) rest).map (· + 1)

/-- Index of the first digit not immediately preceded by a Latin letter (the
start of the leftmost match of the digit-split regex). -/
def findDigitIdx (s : List Char) : Option Nat :=
  findDigitIdxGo none s

/-- One split-point check of the keyword regex: the text after the candidate
name prefix must be optional white-space, then a keyword alternative, then an
optional ASCII closing parenthesis, then end of string.  Keywords are tried
in tuple order (the decomposition is in fact unique, see below). -/
def keywordTail (rest : List Char) : Option (List Char) :=
  let r := rest.drop (rest.takeWhile isPySpace).length
  QUALITATIVE_KEYWORDS.find? (fun kw => r == kw || r == kw ++ [')'])

/-- re.search of the qualitative-keyword pattern: a shortest non-empty,
newline-free prefix (the non-greedy group 1) after which `keywordTail`
matches to the end of the string.  Returns the stripped groups. -/
def keywordSplitGo (pre : List Char) : List Char → Option (List Char × List Char)
  | [] => none
  | c :: rest =>
    if (pre ++ [c]).contains '\n' then none
    else
      match keywordTail rest with
      | some kw => some (pyStrip (pre ++ [c]), pyStrip kw)
      | none => keywordSplitGo (pre ++ [c]) rest

/-- Search for the qualitative-keyword pattern in a fragment. -/
def keywordSplit (s : List Char) : Option (List Char × List Char) :=
  keywordSplitGo [] s

/-- `_split_name_quantity`: split an ingredient fragment into name and
quantity description, trying (in order) full-width colon, ASCII colon,
equals sign, first eligible digit, qualitative keyword, whole-text name. -/
def splitNameQuantity (text : List Char) : List Char × List Char :=
  if text.isEmpty then ([], [])
  else
    match splitFirst '：' text with
    | some p => (pyStrip p.1, pyStrip p.2)
    | none =>
      match splitFirst ':' text with
      | some p => (pyStrip p.1, pyStrip p.2)
      | none =>
        match splitFirst '=' text with
        | some p => (pyStrip p.1, pyStrip p.2)
        | none =>
          match findDigitIdx text with
          | some i => (pyStrip (text.take i), pyStrip (text.drop i))
          | none =>
            match keywordSplit text with
            | some p => p
            | none => (pyStrip text, [])

/-! ### Quantity matcher (`QUANTITY_PATTERN`) -/

/-- The unit vocabulary of `QUANTITY_PATTERN`, in the alternation order of
the source regex. -/
def UNIT_LIST : List (List Char) :=
  ["g".data, "kg".data, "mg".data, "ml".data, "l".data, "L".data,
   "斤".data, "两".data, "钱".data, "克".data, "千克".data, "毫克".data,
   "毫升".data, "升".data,
   "个".data, "只".data, "片".data, "根".data, "瓣".data, "颗".data,
   "块".data, "勺".data, "匙".data, "小勺".data, "大勺".data, "汤勺".data,
   "茶勺".data, "撮".data, "粒".data, "朵".data, "条".data, "段".data,
   "杯".data, "碗".data, "锅".data, "人".data, "份".data, "份数".data,
   "cm".data, "厘米".data, "mm".data, "毫米".data, "米".data, "寸".data,
   "滴".data, "包".data, "袋".data, "盒".data, "瓶".data, "罐".data,
   "棵".data, "头".data, "尾".data]

/-- Case-insensitive prefix test for one unit alternative (re.IGNORECASE on
the ASCII letters appearing in the unit vocabulary). -/
def unitPrefix (u t : List Char) : Bool :=
  u.length ≤ t.length && (t.take u.length).map Char.toLower == u.map Char.toLower

/-- First unit alternative matching (case-insensitively) at this position;
returns the matched input text, as the regex group would. -/
def matchUnitAt (t : List Char) : Option (List Char) :=
  (UNIT_LIST.find? (fun u => unitPrefix u t)).map (fun u => t.take u.length)

/-- Float value of the number groups, integer part `d1` and fractional digit
run `d2` (models Python float(); exact on the short decimals compared in this
file): the rational value of the decimal numeral d1.d2. -/
def ratOfParts (d1 d2 : List Char) : ℚ :=
  mkRat (digitsToNat (d1 ++ d2)) (10 ^ d2.length)

/-- Attempt to match `QUANTITY_PATTERN` at this position: a maximal digit
run, an optional dot-plus-digits fraction, optional white-space, then a unit
alternative.  (When the fraction is present and the unit fails, no shorter
parse can succeed, since no unit begins with a dot.) -/
def quantMatchAt (t : List Char) : Option (ℚ × List Char) :=
  let d1 := t.takeWhile isPyDigit
  if d1.isEmpty then none
  else
    let r1 := t.drop d1.length
    let qr : ℚ × List Char :=
      match r1 with
      | '.' :: u =>
        let d2 := u.takeWhile isPyDigit
        if d2.isEmpty then (ratOfParts d1 [], r1)
        else (ratOfParts d1 d2, u.drop d2.length)
      | _ => (ratOfParts d1 [], r1)
    let r3 := qr.2.drop (qr.2.takeWhile isPySpace).length
    (matchUnitAt r3).map (fun u => (qr.1, u))

/-- QUANTITY_PATTERN.search: leftmost match over the string. -/
def quantScan : List Char → Option (ℚ × List Char)
  | [] => none
  | c :: rest =>
    match quantMatchAt (c :: rest) with
    | some m => some m
    | none => quantScan rest

/-! ### Ingredient line builder (`RecipeParser._create_ingredient_entry`) -/

/-- One structured ingredient record. -/
structure Ingredient where
  name : List Char
  quantity : Option ℚ
  unit : Option (List Char)
  text_quantity : Option (List Char)
  notes : Option (List Char)
deriving DecidableEq

/-- The displayed quantity text after the equals-sign handling: the stripped
left-hand side of the first equals sign when non-empty, otherwise the whole
quantity part. -/
def entryQuantityDisplay (quantity_part : List Char) : List Char :=
  match splitFirst '=' quantity_part with
  | some lr => if (pyStrip lr.1).isEmpty then quantity_part else pyStrip lr.1
  | none => quantity_part

/-- The text given to the quantity matcher: after an equals sign the stripped
right-hand side is preferred, then the left-hand side, then the raw part;
without an equals sign, the quantity part, or the whole line when the part is
empty. -/
def entryQuantitySearch (text quantity_part : List Char) : List Char :=
  match splitFirst '=' quantity_part with
  | some lr =>
    if !(pyStrip lr.2).isEmpty then pyStrip lr.2
    else if !(pyStrip lr.1).isEmpty then pyStrip lr.1
    else quantity_part
  | none => if quantity_part.isEmpty then text else quantity_part

/-- The quantity match used for an entry: search the quantity-search text,
falling back to the whole line. -/
def entryQMatch (text quantity_part : List Char) : Option (ℚ × List Char) :=
  match quantScan (entryQuantitySearch text quantity_part) with
  | some m => some m
  | none => quantScan text

/-- The name field before the final truthiness check: the paren-stripped name
part, with edge colon/equals characters stripped when non-empty. -/
def entryName (name_part : List Char) : List Char :=
  let nc := (stripParenthetical name_part).1
  if nc.isEmpty then [] else stripEdge nc

/-- The text_quantity field: the paren-stripped quantity display, when
non-empty. -/
def entryTextQuantity (quantity_part : List Char) : Option (List Char) :=
  let q := (stripParenthetical (entryQuantityDisplay quantity_part)).1
  if q.isEmpty then none else some q

/-- The notes joined from the parenthetical annotations of the name part and
the quantity display, in that order, with a full-width semicolon. -/
def entryNotesText (name_part quantity_part : List Char) : Option (List Char) :=
  let ns := ((stripParenthetical name_part).2 ++
      (stripParenthetical (entryQuantityDisplay quantity_part)).2).filter
      (fun n => !n.isEmpty)
  if ns.isEmpty then none else some (List.intercalate "；".data ns)

/-- The sentinel notes string written when no quantity information at all was
extracted (the source's Chinese literal meaning "amount unspecified"). -/
def amountUnspecified : List Char := "量未指定".data

/-- Build the ingredient record from the split fragments (the body of
`_create_ingredient_entry` after `_split_name_quantity`); `none` when no
usable name remains. -/
def buildEntry (text name_part quantity_part : List Char) : Option Ingredient :=
  let nm := entryName name_part
  if nm.isEmpty then none
  else
    let qm := entryQMatch text quantity_part
    let tq := entryTextQuantity quantity_part
    let nt := entryNotesText name_part quantity_part
    some { name := nm
           quantity := qm.map (fun m => m.1)
           unit := qm.map (fun m => m.2)
           text_quantity := tq
           notes := if tq = none ∧ qm = none ∧ nt = none
             then some amountUnspecified else nt }

/-- The separator-line guard, re.fullmatch of two-or-more characters drawn
from dash, asterisk, underscore. -/
def isSepRun (t : List Char) : Bool :=
  decide (2 ≤ t.length) && t.all (fun c => c = '-' || c = '*' || c = '_')

/-- `_create_ingredient_entry`: one raw ingredient line to zero-or-one
records. -/
def createIngredientEntry (raw : List Char) : Option Ingredient :=
  let text := pyStrip raw
  if text.isEmpty || isSepRun text then none
  else
    let nq := splitNameQuantity text
    buildEntry text nq.1 nq.2

/-- The notes text an ingredient line would produce before the sentinel
substitution (used to state the sentinel invariant). -/
def ingredientPreNotes (raw : List Char) : Option (List Char) :=
  let text := pyStrip raw
  let nq := splitNameQuantity text
  entryNotesText nq.1 nq.2

/-! ### Ingredient section loop (`RecipeParser.parse_ingredients`) -/

/-- Removal of the leading list marker, re.sub of one dash/asterisk/plus
followed by white-space, anchored at the start. -/
def stripListMarker (l : List Char) : List Char :=
  match l with
  | [] => []
  | c :: rest =>
    if c = '-' || c = '*' || c = '+' then rest.drop (rest.takeWhile isPySpace).length
    else l

/-- The ingredients contributed by one marked list line (after the marker
check): warning lines are dropped; a line with a full-width comma or
ideographic comma and neither digits nor structural separators is split into
items parsed independently; otherwise the line is parsed as one entry. -/
def markedLineEntries (line : List Char) : List Ingredient :=
  let line2 := stripListMarker line
  if "注：".data.isPrefixOf line2 || "注意".data.isPrefixOf line2 ||
      "WARNING".data.isPrefixOf line2 then []
  else
    let multiSep := line2.contains '、' || line2.contains '，'
    let hasNumeric := line2.any isPyDigit
    let hasSpecial := line2.contains '=' || line2.contains ':' ||
        line2.contains '：' || line2.contains '*'
    if multiSep && !hasNumeric && !hasSpecial then
      (((splitOnPred (fun c => c = '、' || c = '，') line2).map pyStrip).filter
          (fun i => !i.isEmpty)).flatMap
        (fun item => (createIngredientEntry item).toList)
    else (createIngredientEntry line2).toList

/-- The ingredients contributed by one raw line of the section: only
list-item lines (first non-blank character a dash, asterisk or plus) are
processed. -/
def ingredientLineEntries (line0 : List Char) : List Ingredient :=
  let line := pyStrip line0
  if line.head? = some '-' || line.head? = some '*' || line.head? = some '+' then
    markedLineEntries line
  else []

/-- The per-line loop of parse_ingredients over the section's lines. -/
def parseIngredientLoop : List (List Char) → List Ingredient
  | [] => []
  | l :: ls => ingredientLineEntries l ++ parseIngredientLoop ls

/-! ### Section locator (the heading-section regexes) -/

/-- Attempt to match two hash marks, optional white-space, then one of the
candidate heading names (in order) at this position; returns the text after
the heading name. -/
def matchHeadingsAt (hs : List (List Char)) (s : List Char) : Option (List Char) :=
  if s.take 2 = "##".data then
    let t := s.drop 2
    let t2 := t.drop (t.takeWhile isPySpace).length
    (hs.find? (fun h => h.isPrefixOf t2)).map (fun h => t2.drop h.length)
  else none

/-- The non-greedy captured body: everything up to the first line start that
begins a second-level (but not deeper) heading, or to the end of the
document (the lookahead of the section regexes, with DOTALL and MULTILINE). -/
def takeUntilBoundary : Bool → List Char → List Char
  | _, [] => []
  | atLS, c :: rest =>
    if atLS && c = '#' && rest.head? = some '#' && !((rest.drop 1).head? = some '#')
    then []
    else c :: takeUntilBoundary (c = '\n') rest

/-- re.search of one heading-section pattern: leftmost position where the
heading matches, with the body captured up to the boundary.  The capture
begins right after the heading name, never at a line start, so the boundary
scan starts with the line-start flag off. -/
def findHeadingSection (hs : List (List Char)) : List Char → Option (List Char)
  | [] => none
  | c :: rest =>
    match matchHeadingsAt hs (c :: rest) with
    | some tail => some (takeUntilBoundary false tail)
    | none => findHeadingSection hs rest

/-- Try a list of headings with one full search each (first match wins), as
the steps-section loop does. -/
def findAnyHeadingSection : List (List Char) → List Char → Option (List Char)
  | [], _ => none
  | h :: hs, content =>
    match findHeadingSection [h] content with
    | some t => some t
    | none => findAnyHeadingSection hs content

/-- `parse_ingredients`: the section under the 计算 heading, else under
必备原料和工具, parsed line by line. -/
def parseIngredients (content : List Char) : List Ingredient :=
  match findHeadingSection ["计算".data] content with
  | some t => parseIngredientLoop (splitLines t)
  | none =>
    match findHeadingSection ["必备原料和工具".data] content with
    | some t => parseIngredientLoop (splitLines t)
    | none => []

/-! ### Step line builder (`RecipeParser.parse_steps`) -/

/-- One sequential cooking step. -/
structure Step where
  step : Nat
  description : List Char
deriving DecidableEq

/-- re.match of the numbered-line pattern: leading digits, one optional
dot/parenthesis/ideographic-comma, white-space, then the captured rest of
the line.  `none` when the line does not start with a digit. -/
def numberLineRest (l : List Char) : Option (List Char) :=
  let d := l.takeWhile isPyDigit
  if d.isEmpty then none
  else
    let r := l.drop d.length
    let r2 :=
      match r with
      | c :: rest => if c = '.' || c = ')' || c = '、' then rest else r
      | [] => r
    let r3 := r2.drop (r2.takeWhile isPySpace).length
    some (r3.takeWhile (fun c => !(c = '\n')))

/-- The candidate description of one stripped line: a bullet line's stripped
remainder, a numbered line's stripped captured rest, or the empty string. -/
def stepRawDescription (line : List Char) : List Char :=
  if line.head? = some '-' || line.head? = some '*' || line.head? = some '+' then
    pyStrip (stripListMarker line)
  else
    match numberLineRest line with
    | some r => pyStrip r
    | none => []

/-- The description extracted from one line of the steps section, `none` when
the line contributes no step (blank, non-matching, or empty description). -/
def stepDescription (line0 : List Char) : Option (List Char) :=
  let line := pyStrip line0
  if line.isEmpty then none
  else if (stepRawDescription line).isEmpty then none
  else some (stepRawDescription line)

/-- The emission loop of parse_steps: step numbers are assigned from the
running counter, starting at 1. -/
def stepsLoop (n : Nat) : List (List Char) → List Step
  | [] => []
  | l :: ls =>
    match stepDescription l with
    | none => stepsLoop n ls
    | some d => { step := n, description := d } :: stepsLoop (n + 1) ls

/-- The steps-section heading synonyms, in trial order. -/
def STEP_HEADINGS : List (List Char) :=
  ["计算和操作".data, "操作".data, "操作步骤".data, "操作流程".data,
   "做法".data, "步骤".data]

/-- `parse_steps`: locate the steps section and run the emission loop. -/
def parseSteps (content : List Char) : List Step :=
  match findAnyHeadingSection STEP_HEADINGS content with
  | none => []
  | some t => stepsLoop 1 (splitLines t)

/-! ### Notes, description, difficulty (`parse_notes`, `extract_description`,
`parse_difficulty`) -/

/-- `parse_notes`: bullet or fixed-phrase lines of the 附加内容 section, or
of the text after a 计算和操作/操作 heading. -/
def parseNotes (content : List Char) : List (List Char) :=
  let m :=
    match findHeadingSection ["附加内容".data] content with
    | some t => some t
    | none => findHeadingSection ["计算和操作".data, "操作".data] content
  match m with
  | none => []
  | some t =>
    (splitLines t).filterMap (fun l0 =>
      let l := pyStrip l0
      if !l.isEmpty && (l.head? = some '-' || l.head? = some '*' ||
          "如果您遵循".data.isPrefixOf l) then some l else none)

/-- The difficulty label phrase. -/
def DIFficultyLabel : List Char := "预估烹饪难度：".data

/-- re.search of the difficulty pattern: the first occurrence of the label
followed by at least one star; the count of the (greedy) star run. -/
def findDifficulty : List Char → Option Nat
  | [] => none
  | c :: rest =>
    if DIFficultyLabel.isPrefixOf (c :: rest) then
      let t := (c :: rest).drop DIFficultyLabel.length
      let stars := t.takeWhile (fun d => d = '★')
      if stars.isEmpty then findDifficulty rest else some stars.length
    else findDifficulty rest

/-- `parse_difficulty`: star count, defaulting to 1. -/
def parseDifficulty (content : List Char) : Nat :=
  (findDifficulty content).getD 1

/-- Suffix test (Python str.endswith). -/
def endsWith (suf s : List Char) : Bool :=
  suf.reverse.isPrefixOf s.reverse

/-- The leftmost double newline at-or-after the third character (the
non-greedy dot-run of the description regex); returns the text after it. -/
def afterDoubleNl : List Char → Option (List Char)
  | '\n' :: '\n' :: rest => some rest
  | _ :: rest => afterDoubleNl rest
  | [] => none

/-- The prefix before the first occurrence of two hash marks (the lookahead
terminating the captured description); `none` when there is none. -/
def beforeHashHash : List Char → Option (List Char)
  | [] => none
  | '#' :: '#' :: _ => some []
  | c :: rest => (beforeHashHash rest).map (fun l => c :: l)

/-- Appending of the difficulty line when present and not already the tail
of the description. -/
def withDifficultyLine (content desc : List Char) : List Char :=
  match findDifficulty content with
  | none => desc
  | some n =>
    let m := DIFficultyLabel ++ List.replicate n '★'
    if endsWith m desc then desc else desc ++ "\n\n".data ++ m

/-- `extract_description`: anchored at the start, a hash, one non-hash
character, then the non-greedy run to the first blank line (necessarily at
index two or later), capturing up to the first ## occurrence; stripped, with
the difficulty line appended.  The empty string when the pattern does not
match. -/
def extractDescription (content : List Char) : List Char :=
  match content with
  | '#' :: c2 :: rest =>
    if c2 = '#' then []
    else
      match afterDoubleNl rest with
      | none => []
      | some tail =>
        match beforeHashHash tail with
        | none => []
        | some grp => withDifficultyLine content (pyStrip grp)
  | _ => []

/-! ### Title search and recipe assembly (`parse_recipe_file`) -/

/-- The backtracking tail of the title regex at one hash: the greedy
white-space run is shortened until a non-newline character follows; the
captured group is the run of non-newline characters from there, stripped. -/
def titleFromHash (t : List Char) : Option (List Char) :=
  if (t.takeWhile isPySpace).isEmpty then none
  else if !(t.dropWhile isPySpace).isEmpty then
    some (pyStrip ((t.dropWhile isPySpace).takeWhile (fun c => !(c = '\n'))))
  else if ((t.takeWhile isPySpace).drop 1).any (fun c => !(c = '\n')) then some []
  else none

/-- Skip to the position after the next newline (the next MULTILINE
line-start candidate). -/
def dropToAfterNl (s : List Char) : List Char :=
  (s.dropWhile (fun c => !(c = '\n'))).drop 1

/-- re.search of the title pattern with MULTILINE: at each line start, a hash
followed by white-space (possibly spanning line breaks) and a non-empty
same-line remainder. -/
def findTitleGo : Nat → List Char → Option (List Char)
  | 0, _ => none
  | _ + 1, [] => none
  | n + 1, c :: rest =>
    if c = '#' then
      match titleFromHash rest with
      | some ti => some ti
      | none => findTitleGo n (dropToAfterNl (c :: rest))
    else findTitleGo n (dropToAfterNl (c :: rest))

/-- The title search at its natural fuel (the skip to the next line start
consumes at least one character per step). -/
def findTitle (s : List Char) : Option (List Char) :=
  findTitleGo s.length s

/-- The directory-to-category table (`CATEGORY_MAP`). -/
def CATEGORY_MAP : List (List Char × List Char) :=
  [("aquatic".data, "水产".data), ("breakfast".data, "早餐".data),
   ("condiment".data, "调味料".data), ("dessert".data, "甜点".data),
   ("drink".data, "饮品".data), ("meat_dish".data, "荤菜".data),
   ("semi-finished".data, "半成品".data), ("soup".data, "汤".data),
   ("staple".data, "主食".data), ("vegetable_dish".data, "素菜".data),
   ("template".data, "模板".data)]

/-- CATEGORY_MAP.get(key, key). -/
def categoryOf (p : List Char) : List Char :=
  ((CATEGORY_MAP.find? (fun kv => kv.1 == p)).map (fun kv => kv.2)).getD p

/-- Python str.replace of every occurrence of ".md" by the empty string,
scanning left to right. -/
def removeMd : List Char → List Char
  | '.' :: 'm' :: 'd' :: rest => removeMd rest
  | c :: rest => c :: removeMd rest
  | [] => []

/-- The parts of the relative path (pathlib's Path.parts for a relative
path: the non-empty slash-separated components). -/
def pathParts (rel : List Char) : List (List Char) :=
  (splitOnPred (fun c => c = '/') rel).filter (fun p => !p.isEmpty)

/-- The full parsed recipe record. -/
structure Recipe where
  id : List Char
  name : List Char
  description : List Char
  source_path : List Char
  image_path : Option (List Char)
  category : List Char
  difficulty : Nat
  tags : List (List Char)
  servings : Nat
  ingredients : List Ingredient
  steps : List Step
  prep_time_minutes : Option Nat
  cook_time_minutes : Option Nat
  total_time_minutes : Option Nat
  additional_notes : List (List Char)

/-- `parse_recipe_file` as a pure text transform: `none` exactly when the
title search fails; otherwise the assembled record.  The image-path lookup
is a file-system collaborator (spec sections 6 and 9) outside the text
engine and is modelled as absent. -/
def parseRecipeFile (content rel : List Char) : Option Recipe :=
  match findTitle content with
  | none => none
  | some title =>
    let category :=
      match (pathParts rel).head? with
      | some p => categoryOf p
      | none => "未分类".data
    some { id := "dishes-".data ++
             removeMd (rel.map (fun c => if c = '/' then '-' else c))
           name := title
           description := extractDescription content
           source_path := "dishes/".data ++ rel
           image_path := none
           category := category
           difficulty := parseDifficulty content
           tags := [category]
           servings := 1
           ingredients := parseIngredients content
           steps := parseSteps content
           prep_time_minutes := none
           cook_time_minutes := none
           total_time_minutes := none
           additional_notes := parseNotes content }

/-! ### Predicates used to state the claims -/

/-- Well-formed parenthesis structure for the stripping pattern: a sequence
of non-parenthesis characters and non-nested spans, each span an opener, a
non-empty run of non-parenthesis characters, and a closer.  This is the
accepted-input class of the parenthetical extractor (nested or degenerate
parentheses are undefined behaviour per the spec). -/
def parenWFGo : Nat → List Char → Bool
  | 0, s => s.isEmpty
  | _ + 1, [] => true
  | n + 1, c :: rest =>
    if isOpenParen c then
      match spanSplit rest with
      | some rt => parenWFGo n rt.2
      | none => false
    else
      if isCloseParen c then false else parenWFGo n rest

/-- The well-formedness check at its natural fuel. -/
def parenWF (s : List Char) : Bool :=
  parenWFGo s.length s

/-- A parenthetical span in the sense of the claim: some opening parenthesis
occurring before some closing parenthesis. -/
def hasParenSpan : List Char → Bool
  | [] => false
  | c :: rest => (isOpenParen c && rest.any isCloseParen) || hasParenSpan rest

/-- A line that is a top-level heading in the claim's sense: a hash, one
white-space character, and non-blank title text, all within the line. -/
def claimHeadingLine (l : List Char) : Bool :=
  match l with
  | '#' :: c :: rest => isPySpace c && !(pyStrip (c :: rest)).isEmpty
  | _ => false

/-- An eligible digit-split position relative to a preceding character: the
character at `i` is a digit, and the character before it (`prev` when
`i = 0`) is not a Latin letter. -/
def DigitOKRel (prev : Option Char) (s : List Char) (i : Nat) : Prop :=
  ∃ c, s.get? i = some c ∧ isPyDigit c = true ∧
    ((i = 0 ∧ ∀ p, prev = some p → isAsciiLetter p = false) ∨
     (1 ≤ i ∧ ∃ p, s.get? (i - 1) = some p ∧ isAsciiLetter p = false))

/-- An eligible digit-split position in a fragment: a digit not immediately
preceded by a Latin letter. -/
def DigitOKAt (s : List Char) (i : Nat) : Prop :=
  DigitOKRel none s i

/-- The tail shape of the qualitative-keyword pattern: optional white-space,
a keyword, an optional trailing ASCII closing parenthesis, end of string. -/
def TailKw (rest kw : List Char) : Prop :=
  ∃ ws opt, rest = ws ++ kw ++ opt ∧ (∀ x ∈ ws, isPySpace x = true) ∧
    kw ∈ QUALITATIVE_KEYWORDS ∧ (opt = [] ∨ opt = [')'])

/-- A keyword match of the splitter at prefix length `k`: a non-empty,
newline-free prefix of length `k` followed by a `TailKw` decomposition. -/
def KwAt (s : List Char) (k : Nat) (kw : List Char) : Prop :=
  ∃ pre rest2, s = pre ++ rest2 ∧ pre.length = k ∧ pre ≠ [] ∧
    ('\n' ∉ pre) ∧ TailKw rest2 kw

/-- A prefix at which a MULTILINE caret can match: the start of the string
or a position right after a newline. -/
def LineStartPre (pre : List Char) : Prop :=
  pre = [] ∨ ∃ q, pre = q ++ ['\n']

/-- The tail of a title match after its hash: a non-empty run of white-space
characters (newlines allowed) followed by a character other than a newline
(the first character of the non-empty captured group). -/
def TitleAtHead (t : List Char) : Prop :=
  ∃ ws c rest, t = ws ++ c :: rest ∧ ws ≠ [] ∧
    (∀ x ∈ ws, isPySpace x = true) ∧ c ≠ '\n'

/-- A match of the title pattern somewhere in the document: a hash at a line
start whose tail admits a title match. -/
def TitleMatch (s : List Char) : Prop :=
  ∃ pre t, s = pre ++ '#' :: t ∧ LineStartPre pre ∧ TitleAtHead t

/-! ## Helper lemmas -/

/-- Membership survives a both-ends strip (dropWhile, reverse, dropWhile,
reverse). -/
theorem mem_stripAround {p : Char → Bool} {c : Char} {l : List Char}
    (h : c ∈ ((l.dropWhile p).reverse.dropWhile p).reverse) : c ∈ l := by
  rw [List.mem_reverse] at h
  have h2 := (List.dropWhile_sublist p).subset h
  rw [List.mem_reverse] at h2
  exact (List.dropWhile_sublist p).subset h2

/-- Membership in a stripped string implies membership in the original. -/
theorem mem_of_mem_pyStrip {c : Char} {l : List Char} (h : c ∈ pyStrip l) : c ∈ l :=
  mem_stripAround h

/-- Membership in an edge-stripped name implies membership in the original. -/
theorem mem_of_mem_stripEdge {c : Char} {l : List Char} (h : c ∈ stripEdge l) : c ∈ l :=
  mem_stripAround h

/-- Unfolding of a successful `buildEntry`: the record's fields in terms of
the named field extractors, and the non-emptiness of the name. -/
theorem buildEntry_some {text np qp : List Char} {i : Ingredient}
    (h : buildEntry text np qp = some i) :
    (entryName np).isEmpty = false ∧
    i = { name := entryName np
          quantity := (entryQMatch text qp).map (fun m => m.1)
          unit := (entryQMatch text qp).map (fun m => m.2)
          text_quantity := entryTextQuantity qp
          notes := if entryTextQuantity qp = none ∧ entryQMatch text qp = none ∧
              entryNotesText np qp = none
            then some amountUnspecified else entryNotesText np qp } := by
  rw [buildEntry] at h
  split at h
  · exact absurd h (by simp)
  · next hn =>
    refine ⟨by simpa using hn, ?_⟩
    exact (Option.some.injEq _ _ ▸ h).symm

/-- Unfolding of a successful `createIngredientEntry`: the guard is passed
and the record comes from `buildEntry` on the split fragments. -/
theorem createIngredientEntry_some {raw : List Char} {i : Ingredient}
    (h : createIngredientEntry raw = some i) :
    ((pyStrip raw).isEmpty || isSepRun (pyStrip raw)) = false ∧
    buildEntry (pyStrip raw) (splitNameQuantity (pyStrip raw)).1
      (splitNameQuantity (pyStrip raw)).2 = some i := by
  rw [createIngredientEntry] at h
  split at h
  · exact absurd h (by simp)
  · next hg => exact ⟨by simpa using hg, h⟩

/-! ## C2: quantity and unit are bound together -/

/-- C2: for every ingredient line and every Ingredient emitted from it, a
non-null quantity comes with a non-null unit: both fields are projections of
the same quantity match. -/
theorem quantity_unit_paired (raw : List Char) (i : Ingredient)
    (h : createIngredientEntry raw = some i)
    (hq : i.quantity.isSome = true) : i.unit.isSome = true := by
  obtain ⟨-, hb⟩ := createIngredientEntry_some h
  obtain ⟨-, hi⟩ := buildEntry_some hb
  subst hi
  cases hm : entryQMatch (pyStrip raw) (splitNameQuantity (pyStrip raw)).2 with
  | none => simp [hm] at hq
  | some m => simp [hm]

/-- C2 witness: a concrete line with a parsed quantity. -/
theorem quantity_unit_paired_witness :
    createIngredientEntry ("鸡蛋：2个".data) =
      some { name := "鸡蛋".data, quantity := some 2, unit := some ("个".data),
             text_quantity := some ("2个".data), notes := none } ∧
    ({ name := "鸡蛋".data, quantity := some 2, unit := some ("个".data),
       text_quantity := some ("2个".data), notes := none } : Ingredient).unit.isSome = true :=
  ⟨by decide,
    quantity_unit_paired ("鸡蛋：2个".data)
      { name := "鸡蛋".data, quantity := some 2, unit := some ("个".data),
        text_quantity := some ("2个".data), notes := none }
      (by decide) (by decide)⟩

/-! ## C3: step numbers are the 1-based emission sequence -/

/-- The emission loop numbers the emitted steps consecutively from its
counter. -/
theorem stepsLoop_step_index : ∀ (ls : List (List Char)) (n i : Nat) (st : Step),
    (stepsLoop n ls)[i]? = some st → st.step = n + i := by
  intro ls
  induction ls with
  | nil => intro n i st h; simp [stepsLoop] at h
  | cons l ls ih =>
    intro n i st h
    cases hd : stepDescription l with
    | none =>
      have hl : stepsLoop n (l :: ls) = stepsLoop n ls := by rw [stepsLoop, hd]
      rw [hl] at h
      exact ih n i st h
    | some d =>
      have hl : stepsLoop n (l :: ls) =
          { step := n, description := d } :: stepsLoop (n + 1) ls := by
        rw [stepsLoop, hd]
      rw [hl] at h
      cases i with
      | zero =>
        simp only [List.getElem?_cons_zero, Option.some.injEq] at h
        rw [← h]
        rfl
      | succ j =>
        simp only [List.getElem?_cons_succ] at h
        have := ih (n + 1) j st h
        omega

/-- C3: for every document, the emitted step list satisfies
steps[i].step = i+1 for every index i, regardless of any numbering in the
source lines. -/
theorem steps_numbering (content : List Char) (i : Nat)
    (h : i < (parseSteps content).length) :
    ((parseSteps content).get ⟨i, h⟩).step = i + 1 := by
  rcases hs : findAnyHeadingSection STEP_HEADINGS content with - | t
  · have hlen : (parseSteps content).length = 0 := by rw [parseSteps, hs]; rfl
    exact absurd (hlen ▸ h) (Nat.not_lt_zero i)
  · have hp : parseSteps content = stepsLoop 1 (splitLines t) := by rw [parseSteps, hs]
    have hq : (parseSteps content)[i]? = some ((parseSteps content).get ⟨i, h⟩) := by
      rw [List.getElem?_eq_getElem h]
      simp
    generalize hst : (parseSteps content).get ⟨i, h⟩ = st
    rw [hst] at hq
    rw [hp] at hq
    have := stepsLoop_step_index (splitLines t) 1 i st hq
    omega

/-- C3 witness: a concrete steps section with two bullet lines. -/
theorem steps_numbering_witness :
    ((parseSteps ("## 做法\n- 将鸡蛋打散\n- 搅拌".data)).get ⟨1, by decide⟩).step = 2 :=
  steps_numbering _ 1 (by decide)

/-! ## C10: emitted step descriptions are non-empty -/

/-- A successful step-line extraction yields a non-empty description. -/
theorem stepDescription_some_ne {l d : List Char} (h : stepDescription l = some d) :
    d ≠ [] := by
  simp only [stepDescription] at h
  split at h
  · exact absurd h (by simp)
  · split at h
    · exact absurd h (by simp)
    · next hne =>
      cases h
      simpa using hne

/-- Every step in the loop's output carries a description obtained from a
successful extraction. -/
theorem stepsLoop_description : ∀ (ls : List (List Char)) (n : Nat) (st : Step),
    st ∈ stepsLoop n ls → st.description ≠ [] := by
  intro ls
  induction ls with
  | nil => intro n st h; simp [stepsLoop] at h
  | cons l ls ih =>
    intro n st h
    cases hd : stepDescription l with
    | none =>
      rw [stepsLoop, hd] at h
      exact ih n st h
    | some d =>
      rw [stepsLoop, hd] at h
      rcases List.mem_cons.mp h with h1 | h2
      · subst h1; exact stepDescription_some_ne hd
      · exact ih (n + 1) st h2

/-- C10: for every steps-section text, every emitted Step has a non-empty
description; marker or numeral lines with nothing after them are skipped. -/
theorem step_description_nonempty (content : List Char) (st : Step)
    (h : st ∈ parseSteps content) : st.description ≠ [] := by
  rcases hs : findAnyHeadingSection STEP_HEADINGS content with - | t
  · rw [parseSteps, hs] at h; simp at h
  · rw [parseSteps, hs] at h
    exact stepsLoop_description _ 1 st h

/-- C10 witness: the first step of a concrete section. -/
theorem step_description_nonempty_witness :
    ({ step := 1, description := "炒".data } : Step) ∈
      parseSteps ("## 做法\n1. 炒\n2.\n- ".data) ∧
    ({ step := 1, description := "炒".data } : Step).description ≠ [] :=
  ⟨by decide,
    step_description_nonempty ("## 做法\n1. 炒\n2.\n- ".data)
      { step := 1, description := "炒".data } (by decide)⟩

/-! ## C9: only list-item lines contribute ingredients -/

/-- C9: a line of the ingredients section that trims to a non-empty string
not starting with a dash, asterisk or plus produces no Ingredient, and its
removal leaves the section's output unchanged. -/
theorem non_list_line_no_ingredients (line : List Char) (c : Char) (rest : List Char)
    (hs : pyStrip line = c :: rest)
    (h1 : c ≠ '-') (h2 : c ≠ '*') (h3 : c ≠ '+') :
    ingredientLineEntries line = [] ∧
    ∀ pre post, parseIngredientLoop (pre ++ line :: post) =
      parseIngredientLoop (pre ++ post) := by
  have he : ingredientLineEntries line = [] := by
    rw [ingredientLineEntries, hs]
    simp [h1, h2, h3]
  refine ⟨he, ?_⟩
  intro pre post
  induction pre with
  | nil => simp [parseIngredientLoop, he]
  | cons q qre ih => simp [parseIngredientLoop, ih]

/-- C9 witness: a plain text line contributes nothing. -/
theorem non_list_line_no_ingredients_witness :
    pyStrip ("盐适量".data) = '盐' :: "适量".data ∧
    ingredientLineEntries ("盐适量".data) = [] ∧
    parseIngredientLoop ["盐适量".data] = parseIngredientLoop [] :=
  ⟨by decide,
    (non_list_line_no_ingredients ("盐适量".data) '盐' ("适量".data)
      (by decide) (by decide) (by decide) (by decide)).1,
    (non_list_line_no_ingredients ("盐适量".data) '盐' ("适量".data)
      (by decide) (by decide) (by decide) (by decide)).2 [] []⟩

/-! ## C5: the sentinel notes value -/

/-- C5 counterexample: the sentinel written by the code is the Chinese
string 量未指定, not the claim's literal "amount unspecified". -/
theorem sentinel_literal_cex :
    createIngredientEntry ("老抽".data) =
      some { name := "老抽".data, quantity := none, unit := none,
             text_quantity := none, notes := some ("量未指定".data) } ∧
    ("量未指定".data : List Char) ≠ "amount unspecified".data := by
  constructor
  · decide
  · decide

/-- C5 amended: when quantity, text_quantity and the pre-substitution notes
are all absent, notes is set to the sentinel 量未指定 (the code's literal,
meaning "amount unspecified"); when any of them is present the notes field
is the pre-substitution notes text, with no sentinel substituted. -/
theorem sentinel_notes (raw : List Char) (i : Ingredient)
    (h : createIngredientEntry raw = some i) :
    ((i.quantity = none ∧ i.text_quantity = none ∧ ingredientPreNotes raw = none) →
      i.notes = some amountUnspecified) ∧
    ((i.quantity ≠ none ∨ i.text_quantity ≠ none ∨ ingredientPreNotes raw ≠ none) →
      i.notes = ingredientPreNotes raw) := by
  obtain ⟨-, hb⟩ := createIngredientEntry_some h
  obtain ⟨-, hi⟩ := buildEntry_some hb
  have hpn : ingredientPreNotes raw =
      entryNotesText (splitNameQuantity (pyStrip raw)).1
        (splitNameQuantity (pyStrip raw)).2 := rfl
  subst hi
  rw [hpn]
  dsimp only
  constructor
  · rintro ⟨h1, h2, h3⟩
    have hqm : entryQMatch (pyStrip raw) (splitNameQuantity (pyStrip raw)).2 = none := by
      rcases hq : entryQMatch (pyStrip raw) (splitNameQuantity (pyStrip raw)).2 with - | m
      · rfl
      · rw [hq] at h1; simp at h1
    rw [if_pos ⟨h2, hqm, h3⟩]
  · rintro (h1 | h2 | h3)
    · have hqm : ¬(entryQMatch (pyStrip raw) (splitNameQuantity (pyStrip raw)).2 = none) := by
        intro hq; rw [hq] at h1; simp at h1
      rw [if_neg (fun hc => hqm hc.2.1)]
    · rw [if_neg (fun hc => h2 hc.1)]
    · rw [if_neg (fun hc => h3 hc.2.2)]

/-- C5 witness: a bare ingredient name receives the sentinel. -/
theorem sentinel_notes_witness :
    ingredientPreNotes ("老抽".data) = none ∧
    ({ name := "老抽".data, quantity := none, unit := none,
       text_quantity := none, notes := some ("量未指定".data) } : Ingredient).notes =
      some amountUnspecified :=
  ⟨by decide,
    (sentinel_notes ("老抽".data)
      { name := "老抽".data, quantity := none, unit := none,
        text_quantity := none, notes := some ("量未指定".data) }
      (by decide)).1 (by decide)⟩

/-! ## C6: the separator-line guard -/

/-- C6 counterexample: the guard pattern requires only two repeated
characters, so the two-character separator line is discarded, which the
claim denies. -/
theorem separator_two_chars_cex :
    createIngredientEntry ("--".data) = none ∧
    ("--".data : List Char).length = 2 ∧
    (∀ c ∈ ("--".data : List Char), c = '-') := by
  refine ⟨by decide, by decide, by decide⟩

/-- C6 amended: the separator guard discards a line exactly when, after
trimming, it is empty or consists of two-or-more characters drawn from
dash, asterisk, underscore; such lines produce no Ingredient, and all other
lines proceed to the normal split-and-build path. -/
theorem separator_line_discarded (raw : List Char) :
    ((pyStrip raw = [] ∨
        (2 ≤ (pyStrip raw).length ∧ ∀ c ∈ pyStrip raw, c = '-' ∨ c = '*' ∨ c = '_')) →
      createIngredientEntry raw = none) ∧
    (¬(pyStrip raw = [] ∨
        (2 ≤ (pyStrip raw).length ∧ ∀ c ∈ pyStrip raw, c = '-' ∨ c = '*' ∨ c = '_')) →
      createIngredientEntry raw =
        buildEntry (pyStrip raw) (splitNameQuantity (pyStrip raw)).1
          (splitNameQuantity (pyStrip raw)).2) := by
  constructor
  · intro h
    have hg : ((pyStrip raw).isEmpty || isSepRun (pyStrip raw)) = true := by
      rcases h with h | ⟨h1, h2⟩
      · simp [h]
      · apply Bool.or_eq_true_iff.mpr
        right
        rw [isSepRun]
        apply Bool.and_eq_true_iff.mpr
        refine ⟨by simpa using h1, ?_⟩
        rw [List.all_eq_true]
        intro c hc
        rcases h2 c hc with h | h | h <;> simp [h]
    rw [createIngredientEntry, if_pos hg]
  · intro h
    push_neg at h
    obtain ⟨hne, hrest⟩ := h
    have h1 : (pyStrip raw).isEmpty = false := by simpa using hne
    have h2 : isSepRun (pyStrip raw) = false := by
      by_cases hlen : 2 ≤ (pyStrip raw).length
      · obtain ⟨c, hc, hcne⟩ := hrest hlen
        cases hsep : isSepRun (pyStrip raw) with
        | false => rfl
        | true =>
          exfalso
          rw [isSepRun] at hsep
          have hall := (Bool.and_eq_true_iff.mp hsep).2
          have hcb := List.all_eq_true.mp hall c hc
          simp only [Bool.or_eq_true, decide_eq_true_eq] at hcb
          rcases hcb with (hcb | hcb) | hcb
          · exact hcne.1 hcb
          · exact hcne.2.1 hcb
          · exact hcne.2.2 hcb
      · rw [isSepRun]
        have hd : decide (2 ≤ (pyStrip raw).length) = false := by simpa using hlen
        rw [hd]
        rfl
    have hg : ((pyStrip raw).isEmpty || isSepRun (pyStrip raw)) = false := by
      rw [h1, h2]
      rfl
    rw [createIngredientEntry, if_neg (by simp [hg])]

/-- C6 witness: the separator guard fires on a three-dash line. -/
theorem separator_line_discarded_witness :
    (pyStrip ("---".data) = [] ∨
      (2 ≤ (pyStrip ("---".data)).length ∧
        ∀ c ∈ pyStrip ("---".data), c = '-' ∨ c = '*' ∨ c = '_')) ∧
    createIngredientEntry ("---".data) = none :=
  ⟨by decide, (separator_line_discarded ("---".data)).1 (by decide)⟩

/-! ## C8: the equals-sign quantity fragment -/

/-- With the concrete fragment the search text is its right-hand side,
whatever the rest of the line is. -/
theorem entryQuantitySearch_eq (text : List Char) :
    entryQuantitySearch text ("2个=200g".data) = "200g".data := rfl

/-- The quantity matcher on the right-hand side. -/
theorem quantScan_200g : quantScan ("200g".data) = some ((200 : ℚ), "g".data) := by
  decide

/-- The quantity match of any line whose quantity fragment is 2个=200g. -/
theorem entryQMatch_200 (text : List Char) :
    entryQMatch text ("2个=200g".data) = some ((200 : ℚ), "g".data) := by
  rw [entryQMatch, entryQuantitySearch_eq, quantScan_200g]

/-- The displayed quantity of the concrete fragment. -/
theorem entryTextQuantity_200 :
    entryTextQuantity ("2个=200g".data) = some ("2个".data) := by
  decide

/-- C8: every emitted Ingredient whose quantity fragment is 2个=200g carries
text_quantity 2个 (left-hand side of the equals sign) and quantity 200 with
unit g (parsed from the right-hand side). -/
theorem equals_fragment (raw : List Char) (i : Ingredient)
    (h : createIngredientEntry raw = some i)
    (hq : (splitNameQuantity (pyStrip raw)).2 = "2个=200g".data) :
    i.text_quantity = some ("2个".data) ∧ i.quantity = some 200 ∧
    i.unit = some ("g".data) := by
  obtain ⟨-, hb⟩ := createIngredientEntry_some h
  obtain ⟨-, hi⟩ := buildEntry_some hb
  subst hi
  rw [hq]
  rw [entryQMatch_200, entryTextQuantity_200]
  exact ⟨rfl, rfl, rfl⟩

/-- C8 witness: a concrete line with the compound fragment. -/
theorem equals_fragment_witness :
    (splitNameQuantity (pyStrip ("鸡蛋：2个=200g".data))).2 = "2个=200g".data ∧
    ({ name := "鸡蛋".data, quantity := some 200, unit := some ("g".data),
       text_quantity := some ("2个".data), notes := none } : Ingredient).text_quantity =
      some ("2个".data) ∧
    ({ name := "鸡蛋".data, quantity := some 200, unit := some ("g".data),
       text_quantity := some ("2个".data), notes := none } : Ingredient).quantity =
      some 200 ∧
    ({ name := "鸡蛋".data, quantity := some 200, unit := some ("g".data),
       text_quantity := some ("2个".data), notes := none } : Ingredient).unit =
      some ("g".data) := by
  refine ⟨by decide, ?_⟩
  have := equals_fragment ("鸡蛋：2个=200g".data)
    { name := "鸡蛋".data, quantity := some 200, unit := some ("g".data),
      text_quantity := some ("2个".data), notes := none }
    (by decide) (by decide)
  exact this

/-! ## C4: names are non-empty; parenthetical stripping -/

/-- C4 counterexample: the empty parenthetical has no inner character and is
not removed, so the emitted name contains a parenthetical span. -/
theorem empty_paren_survives_cex :
    createIngredientEntry ("a()".data) =
      some { name := "a()".data, quantity := none, unit := none,
             text_quantity := none, notes := some ("量未指定".data) } ∧
    hasParenSpan ("a()".data) = true := by
  refine ⟨by decide, by decide⟩

/-- On a well-formed text the re.sub scan removes every parenthesis
character. -/
theorem stripParenGo_wf : ∀ (n : Nat) (s : List Char), parenWFGo n s = true →
    ∀ x ∈ (stripParenGo n s).1, isParenChar x = false := by
  intro n
  induction n with
  | zero =>
    intro s h x hx
    rw [parenWFGo] at h
    have hs : s = [] := by simpa using h
    subst hs
    simp [stripParenGo] at hx
  | succ n ih =>
    intro s h x hx
    cases s with
    | nil => simp [stripParenGo] at hx
    | cons c rest =>
      rw [stripParenGo] at hx
      rw [parenWFGo] at h
      by_cases hc : isOpenParen c = true
      · simp only [hc, if_true] at hx h
        rcases hsp : spanSplit rest with - | rt
        · rw [hsp] at h
          simp at h
        · rw [hsp] at hx h
          exact ih rt.2 h x hx
      · have hc2 : isOpenParen c = false := by simpa using hc
        simp only [hc2, Bool.false_eq_true, if_false] at hx h
        by_cases hcc : isCloseParen c = true
        · rw [if_pos hcc] at h
          simp at h
        · have hcc2 : isCloseParen c = false := by simpa using hcc
          rw [hcc2] at h
          simp only [Bool.false_eq_true, if_false] at h
          rcases List.mem_cons.mp hx with hx1 | hx2
          · subst hx1
            simp [isParenChar, hc2, hcc2]
          · exact ih rest h x hx2

/-- C4 amended: every emitted Ingredient has a non-empty name; and whenever
the name fragment is well-formed for the stripping pattern (no nested and no
empty parentheses, the accepted-input class), the name contains no
parenthesis character at all — degenerate spans such as the empty
parenthetical can survive stripping, as the counterexample shows. -/
theorem name_nonempty_paren_free (raw : List Char) (i : Ingredient)
    (h : createIngredientEntry raw = some i) :
    i.name ≠ [] ∧
    (parenWF (splitNameQuantity (pyStrip raw)).1 = true →
      ∀ c ∈ i.name, isParenChar c = false) := by
  obtain ⟨-, hb⟩ := createIngredientEntry_some h
  obtain ⟨hn, hi⟩ := buildEntry_some hb
  subst hi
  constructor
  · intro he
    have he2 : entryName (splitNameQuantity (pyStrip raw)).1 = [] := he
    rw [he2] at hn
    simp at hn
  · intro hwf c hc
    have hc2 : c ∈ entryName (splitNameQuantity (pyStrip raw)).1 := hc
    rw [entryName] at hc2
    split at hc2
    · simp at hc2
    · have hc3 := mem_of_mem_stripEdge hc2
      have hc4 : c ∈ (stripParenAux (splitNameQuantity (pyStrip raw)).1).1 := by
        have := mem_of_mem_pyStrip (l := (stripParenAux
          (splitNameQuantity (pyStrip raw)).1).1) hc3
        exact this
      exact stripParenGo_wf _ _ hwf c hc4

/-- C4 witness: a parenthesized annotation in the name fragment is removed
and the name is non-empty and parenthesis-free. -/
theorem name_nonempty_paren_free_witness :
    parenWF (splitNameQuantity (pyStrip ("鸡蛋（土鸡蛋）：2个".data))).1 = true ∧
    ("鸡蛋".data : List Char) ≠ [] ∧
    (∀ c ∈ ("鸡蛋".data : List Char), isParenChar c = false) := by
  have := name_nonempty_paren_free ("鸡蛋（土鸡蛋）：2个".data)
    { name := "鸡蛋".data, quantity := some 2, unit := some ("个".data),
      text_quantity := some ("2个".data), notes := some ("土鸡蛋".data) }
    (by decide)
  exact ⟨by decide, this.1, this.2 (by decide)⟩

/-! ## C7: the splitter's strategy order -/

/-- Python split(sep, 1) splits at the first occurrence of the separator. -/
theorem splitFirst_of_mem {c : Char} : ∀ {s : List Char}, c ∈ s →
    splitFirst c s = some (s.takeWhile (fun x => !(x = c)),
      (s.dropWhile (fun x => !(x = c))).drop 1) := by
  intro s
  induction s with
  | nil => intro h; simp at h
  | cons a rest ih =>
    intro h
    by_cases ha : a = c
    · subst ha
      rw [splitFirst]
      simp
    · have hm : c ∈ rest := by
        rcases List.mem_cons.mp h with h1 | h2
        · exact absurd h1.symm ha
        · exact h2
      rw [splitFirst, if_neg ha, ih hm]
      have hba : (!(a = c) : Bool) = true := by simpa using ha
      simp [List.takeWhile_cons, List.dropWhile_cons, hba]

/-- When the separator does not occur, split(sep, 1) yields one part. -/
theorem splitFirst_of_not_mem {c : Char} : ∀ {s : List Char}, c ∉ s →
    splitFirst c s = none := by
  intro s
  induction s with
  | nil => intro h; rfl
  | cons a rest ih =>
    intro h
    have ha : ¬(a = c) := fun hc => h (by rw [hc]; exact List.mem_cons_self c rest)
    have hm : c ∉ rest := fun hc => h (List.mem_cons_of_mem a hc)
    rw [splitFirst, if_neg ha, ih hm]
    rfl

/-- The head test of the digit search in propositional form. -/
theorem digit_head_iff (prev : Option Char) (c : Char) :
    ((isPyDigit c && prevOK prev) = true) ↔
    (isPyDigit c = true ∧ ∀ p, prev = some p → isAsciiLetter p = false) := by
  cases prev with
  | none => simp [prevOK]
  | some p => simp [prevOK, Bool.and_eq_true_iff]

/-- The digit-position predicate on an empty string is empty. -/
theorem DigitOKRel_nil (prev : Option Char) (i : Nat) : ¬ DigitOKRel prev [] i := by
  rintro ⟨c, hc, -⟩
  simp at hc

/-- The digit-position predicate at the head. -/
theorem DigitOKRel_zero (prev : Option Char) (c : Char) (rest : List Char) :
    DigitOKRel prev (c :: rest) 0 ↔
    (isPyDigit c = true ∧ ∀ p, prev = some p → isAsciiLetter p = false) := by
  constructor
  · rintro ⟨d, hd, hdig, hside⟩
    simp only [List.get?_cons_zero, Option.some.injEq] at hd
    subst hd
    rcases hside with ⟨-, hp⟩ | ⟨h1, -⟩
    · exact ⟨hdig, hp⟩
    · omega
  · rintro ⟨hdig, hp⟩
    exact ⟨c, by simp, hdig, Or.inl ⟨rfl, hp⟩⟩

/-- Shifting the digit-position predicate across the head character. -/
theorem DigitOKRel_succ (prev : Option Char) (c : Char) (rest : List Char) (i : Nat) :
    DigitOKRel prev (c :: rest) (i + 1) ↔ DigitOKRel (some c) rest i := by
  constructor
  · rintro ⟨d, hd, hdig, hside⟩
    simp only [List.get?_cons_succ] at hd
    rcases hside with ⟨h0, -⟩ | ⟨-, p, hp, hlet⟩
    · omega
    · cases i with
      | zero =>
        simp only [Nat.add_sub_cancel, List.get?_cons_zero, Option.some.injEq] at hp
        subst hp
        exact ⟨d, hd, hdig, Or.inl ⟨rfl, fun q hq => by cases hq; exact hlet⟩⟩
      | succ j =>
        refine ⟨d, hd, hdig, Or.inr ⟨by omega, p, ?_, hlet⟩⟩
        have : j + 1 + 1 - 1 = j + 1 := by omega
        rw [this] at hp
        simpa using hp
  · rintro ⟨d, hd, hdig, hside⟩
    rcases hside with ⟨h0, hp⟩ | ⟨h1, p, hp, hlet⟩
    · subst h0
      refine ⟨d, by simpa using hd, hdig, Or.inr ⟨by omega, c, by simp, hp c rfl⟩⟩
    · refine ⟨d, by simpa using hd, hdig, Or.inr ⟨by omega, p, ?_, hlet⟩⟩
      have h2 : i + 1 - 1 = (i - 1) + 1 := by omega
      rw [h2]
      simpa using hp

/-- The digit search returns `none` exactly when no position is eligible. -/
theorem findDigitIdxGo_none : ∀ (s : List Char) (prev : Option Char),
    findDigitIdxGo prev s = none ↔ ∀ i, ¬ DigitOKRel prev s i := by
  intro s
  induction s with
  | nil =>
    intro prev
    simp only [findDigitIdxGo]
    exact ⟨fun _ i => DigitOKRel_nil prev i, fun _ => trivial⟩
  | cons c rest ih =>
    intro prev
    rw [findDigitIdxGo]
    by_cases hh : (isPyDigit c && prevOK prev) = true
    · rw [if_pos hh]
      constructor
      · intro h; exact absurd h (by simp)
      · intro h
        exact absurd ((DigitOKRel_zero prev c rest).mpr ((digit_head_iff prev c).mp hh)) (h 0)
    · rw [if_neg hh]
      constructor
      · intro h i
        have hrest : findDigitIdxGo (some c) rest = none := by
          rcases hr : findDigitIdxGo (some c) rest with - | j
          · rfl
          · rw [hr] at h; simp at h
        cases i with
        | zero =>
          intro hc
          exact hh ((digit_head_iff prev c).mpr ((DigitOKRel_zero prev c rest).mp hc))
        | succ j =>
          intro hc
          exact ((ih (some c)).mp hrest j) ((DigitOKRel_succ prev c rest j).mp hc)
      · intro h
        have : ∀ j, ¬ DigitOKRel (some c) rest j := fun j hc =>
          h (j + 1) ((DigitOKRel_succ prev c rest j).mpr hc)
        rw [(ih (some c)).mpr this]
        rfl

/-- The digit search finds the least eligible position. -/
theorem findDigitIdxGo_some : ∀ (s : List Char) (prev : Option Char) (i : Nat),
    DigitOKRel prev s i → (∀ j, j < i → ¬ DigitOKRel prev s j) →
    findDigitIdxGo prev s = some i := by
  intro s
  induction s with
  | nil => intro prev i h _; exact absurd h (DigitOKRel_nil prev i)
  | cons c rest ih =>
    intro prev i h hmin
    rw [findDigitIdxGo]
    cases i with
    | zero =>
      rw [if_pos ((digit_head_iff prev c).mpr ((DigitOKRel_zero prev c rest).mp h))]
    | succ j =>
      have hh : ¬((isPyDigit c && prevOK prev) = true) := by
        intro hc
        exact hmin 0 (by omega)
          ((DigitOKRel_zero prev c rest).mpr ((digit_head_iff prev c).mp hc))
      rw [if_neg hh]
      have h2 : DigitOKRel (some c) rest j := (DigitOKRel_succ prev c rest j).mp h
      have hmin2 : ∀ m, m < j → ¬ DigitOKRel (some c) rest m := by
        intro m hm hc
        exact hmin (m + 1) (by omega) ((DigitOKRel_succ prev c rest m).mpr hc)
      rw [ih (some c) j h2 hmin2]
      rfl

/-- Facts about the keyword vocabulary: no keyword is empty, contains an
ASCII closing parenthesis, has surrounding white-space, or begins with a
white-space character. -/
theorem kwFacts : ∀ kw ∈ QUALITATIVE_KEYWORDS, kw ≠ [] ∧ (')' ∉ kw) ∧
    pyStrip kw = kw ∧ (∀ c, kw.head? = some c → isPySpace c = false) := by
  decide

/-- takeWhile and dropWhile over an all-satisfying prefix followed by a
failing head. -/
theorem takeWhile_append_eq {p : Char → Bool} : ∀ (a b : List Char),
    (∀ x ∈ a, p x = true) → (∀ c, b.head? = some c → p c = false) →
    (a ++ b).takeWhile p = a ∧ (a ++ b).dropWhile p = b := by
  intro a
  induction a with
  | nil =>
    intro b _ hb
    cases b with
    | nil => exact ⟨rfl, rfl⟩
    | cons c t =>
      have hc := hb c rfl
      simp [List.takeWhile_cons, List.dropWhile_cons, hc]
  | cons x a ih =>
    intro b ha hb
    have hx : p x = true := ha x (List.mem_cons_self x a)
    have := ih b (fun y hy => ha y (List.mem_cons_of_mem x hy)) hb
    simp [List.takeWhile_cons, List.dropWhile_cons, hx, this.1, this.2]

/-- Dropping the matched white-space prefix is dropWhile. -/
theorem drop_length_takeWhile (p : Char → Bool) : ∀ (l : List Char),
    l.drop (l.takeWhile p).length = l.dropWhile p := by
  intro l
  induction l with
  | nil => rfl
  | cons c t ih =>
    by_cases hc : p c = true
    · simp [List.takeWhile_cons, List.dropWhile_cons, hc, ih]
    · have hc2 : p c = false := by simpa using hc
      simp [List.takeWhile_cons, List.dropWhile_cons, hc2]

/-- The keyword tail decomposition is unique in its keyword. -/
theorem tailkw_unique {kw kw2 opt : List Char} (hkw : kw ∈ QUALITATIVE_KEYWORDS)
    (hkw2 : kw2 ∈ QUALITATIVE_KEYWORDS) (hopt : opt = [] ∨ opt = [')'])
    (h : kw ++ opt = kw2 ∨ kw ++ opt = kw2 ++ [')']) : kw2 = kw := by
  have hnp := (kwFacts kw hkw).2.1
  have hnp2 := (kwFacts kw2 hkw2).2.1
  rcases hopt with ho | ho <;> subst ho <;> rcases h with h | h
  · simpa using h.symm
  · exfalso
    apply hnp
    rw [List.append_nil] at h
    rw [h]
    exact List.mem_append_right kw2 (List.mem_singleton_self ')')
  · exfalso
    apply hnp2
    rw [← h]
    exact List.mem_append_right kw (List.mem_singleton_self ')')
  · exact (List.append_cancel_right h).symm

/-- The tail check of the keyword search succeeds exactly on its pattern
decomposition (white-space, keyword, optional closing parenthesis). -/
theorem keywordTail_some_iff (rest kw : List Char) :
    keywordTail rest = some kw ↔ TailKw rest kw := by
  rw [keywordTail]
  rw [drop_length_takeWhile]
  constructor
  · intro h
    have hmem := List.mem_of_find?_eq_some h
    have hpred := List.find?_some h
    have hr : rest.dropWhile isPySpace = kw ∨ rest.dropWhile isPySpace = kw ++ [')'] := by
      rcases Bool.or_eq_true_iff.mp hpred with h1 | h1
      · exact Or.inl (by simpa using h1)
      · exact Or.inr (by simpa using h1)
    have hws : ∀ x ∈ rest.takeWhile isPySpace, isPySpace x = true :=
      fun x hx => List.mem_takeWhile_imp hx
    rcases hr with h1 | h1
    · exact ⟨rest.takeWhile isPySpace, [],
        by rw [List.append_nil, ← h1, List.takeWhile_append_dropWhile],
        hws, hmem, Or.inl rfl⟩
    · exact ⟨rest.takeWhile isPySpace, [')'],
        by rw [List.append_assoc, ← h1, List.takeWhile_append_dropWhile],
        hws, hmem, Or.inr rfl⟩
  · rintro ⟨ws, opt, heq, hws, hkw, hopt⟩
    have hkf := kwFacts kw hkw
    have hhead : ∀ c, (kw ++ opt).head? = some c → isPySpace c = false := by
      intro c hc
      cases kw with
      | nil => exact absurd rfl hkf.1
      | cons k0 ktl =>
        simp only [List.cons_append, List.head?_cons, Option.some.injEq] at hc
        subst hc
        exact hkf.2.2.2 k0 rfl
    have hsplit := takeWhile_append_eq ws (kw ++ opt) hws hhead
    have hdw : rest.dropWhile isPySpace = kw ++ opt := by
      rw [heq, List.append_assoc]
      exact hsplit.2
    have hpred : (fun k => rest.dropWhile isPySpace == k ||
        rest.dropWhile isPySpace == k ++ [')']) kw = true := by
      rcases hopt with ho | ho <;> subst ho
      · simp only [List.append_nil] at hdw
        simp [hdw]
      · simp [hdw]
    have hex : ∃ x ∈ QUALITATIVE_KEYWORDS, (fun k => rest.dropWhile isPySpace == k ||
        rest.dropWhile isPySpace == k ++ [')']) x = true := ⟨kw, hkw, hpred⟩
    rcases hfind : QUALITATIVE_KEYWORDS.find? (fun k => rest.dropWhile isPySpace == k ||
        rest.dropWhile isPySpace == k ++ [')']) with - | kw2
    · exfalso
      have := List.find?_isSome.mpr hex
      rw [hfind] at this
      simp at this
    · have hmem2 := List.mem_of_find?_eq_some hfind
      have hpred2 := List.find?_some hfind
      have hr2 : kw ++ opt = kw2 ∨ kw ++ opt = kw2 ++ [')'] := by
        rw [← hdw]
        rcases Bool.or_eq_true_iff.mp hpred2 with h1 | h1
        · exact Or.inl (by simpa using h1)
        · exact Or.inr (by simpa using h1)
      rw [tailkw_unique hkw hmem2 hopt hr2]

/-- The boundary form of the keyword-match predicate: a match whose prefix
is exactly the consumed text. -/
theorem KwAt_boundary {pre2 rest2 : List Char} (hne : pre2 ≠ []) (kw : List Char) :
    KwAt (pre2 ++ rest2) pre2.length kw ↔ (('\n' ∉ pre2) ∧ TailKw rest2 kw) := by
  constructor
  · rintro ⟨pk, r2, heq, hlen, -, hnl, ht⟩
    obtain ⟨h1, h2⟩ := List.append_inj heq hlen.symm
    subst h1
    subst h2
    exact ⟨hnl, ht⟩
  · rintro ⟨hnl, ht⟩
    exact ⟨pre2, rest2, rfl, rfl, hne, hnl, ht⟩

/-- A keyword match needs at least one character after its prefix. -/
theorem KwAt_lt_length {s : List Char} {k : Nat} {kw : List Char}
    (h : KwAt s k kw) : k < s.length := by
  obtain ⟨pk, r2, heq, hlen, -, -, ws, opt, hre, -, hkw, -⟩ := h
  have hne : kw ≠ [] := (kwFacts kw hkw).1
  have hpos : 0 < kw.length := List.length_pos.mpr hne
  subst heq
  subst hre
  simp only [List.length_append]
  omega

/-- No keyword match extends past a newline in its prefix. -/
theorem KwAt_no_nl_prefix {pre2 rest2 : List Char} {k : Nat} {kw : List Char}
    (hk : KwAt (pre2 ++ rest2) k kw) (hge : pre2.length ≤ k)
    (hnl : '\n' ∈ pre2) : False := by
  obtain ⟨pk, r2, heq, hlen, -, hnlk, -⟩ := hk
  have hpk : pk = (pre2 ++ rest2).take k := by
    rw [heq, ← hlen, List.take_left]
  have hp2 : pre2 = pk.take pre2.length := by
    rw [hpk, List.take_take, min_eq_left hge, List.take_left]
  exact hnlk ((List.take_sublist pre2.length pk).subset (hp2 ▸ hnl))

/-- The length of one consumed character. -/
theorem length_append_one (pre : List Char) (c : Char) :
    (pre ++ [c]).length = pre.length + 1 := by
  simp

/-- The keyword search scans split points left to right: it returns `none`
when no decomposition exists, and at the least matching prefix length it
returns the stripped prefix and keyword. -/
theorem keywordSplitGo_spec : ∀ (rest pre : List Char),
    ('\n' ∉ pre) →
    (∀ k kw, k ≤ pre.length → ¬ KwAt (pre ++ rest) k kw) →
    ((∀ k kw, ¬ KwAt (pre ++ rest) k kw) → keywordSplitGo pre rest = none) ∧
    (∀ k kw, KwAt (pre ++ rest) k kw →
      (∀ k2 kw2, k2 < k → ¬ KwAt (pre ++ rest) k2 kw2) →
      keywordSplitGo pre rest = some (pyStrip ((pre ++ rest).take k), pyStrip kw)) := by
  intro rest
  induction rest with
  | nil =>
    intro pre hnl hinv
    refine ⟨fun _ => rfl, ?_⟩
    intro k kw hk hmin
    exfalso
    have hlt := KwAt_lt_length hk
    rw [List.length_append, List.length_nil] at hlt
    exact hinv k kw (by omega) hk
  | cons c rest' ih =>
    intro pre hnl hinv
    have hs : pre ++ c :: rest' = (pre ++ [c]) ++ rest' := by simp
    by_cases hcn : (pre ++ [c]).contains '\n' = true
    · have hmem : '\n' ∈ pre ++ [c] := List.elem_iff.mp hcn
      have hnone : keywordSplitGo pre (c :: rest') = none := by
        rw [keywordSplitGo, if_pos hcn]
      refine ⟨fun _ => hnone, ?_⟩
      intro k kw hk hmin
      exfalso
      rw [hs] at hk
      rcases le_or_lt k pre.length with hle | hgt
      · exact hinv k kw hle (hs ▸ hk)
      · have hge : (pre ++ [c]).length ≤ k := by
          rw [length_append_one]; omega
        exact KwAt_no_nl_prefix hk hge hmem
    · have hnl2 : '\n' ∉ pre ++ [c] := fun hm => hcn (List.elem_iff.mpr hm)
      have hne2 : pre ++ [c] ≠ [] := by simp
      rcases htail : keywordTail rest' with - | kw0
      · -- no match at this split point: recurse
        have hgo : keywordSplitGo pre (c :: rest') = keywordSplitGo (pre ++ [c]) rest' := by
          rw [keywordSplitGo, if_neg hcn, htail]
        have hinv2 : ∀ k kw, k ≤ (pre ++ [c]).length →
            ¬ KwAt ((pre ++ [c]) ++ rest') k kw := by
          intro k kw hkle hk
          rw [length_append_one] at hkle
          rcases le_or_lt k pre.length with hle | hgt
          · exact hinv k kw hle (hs ▸ hk)
          · have hkeq : k = (pre ++ [c]).length := by rw [length_append_one]; omega
            rw [hkeq] at hk
            have := ((KwAt_boundary hne2 kw).mp hk).2
            rw [← keywordTail_some_iff] at this
            rw [htail] at this
            exact absurd this (by simp)
        have hih := ih (pre ++ [c]) hnl2 hinv2
        constructor
        · intro hno
          rw [hgo]
          exact hih.1 (fun k kw hk => hno k kw (hs ▸ hk))
        · intro k kw hk hmin
          rw [hgo]
          have := hih.2 k kw (hs ▸ hk) (fun k2 kw2 hlt hk2 => hmin k2 kw2 hlt (hs ▸ hk2))
          rw [← hs] at this
          exact this
      · -- match at this split point
        have hgo : keywordSplitGo pre (c :: rest') =
            some (pyStrip (pre ++ [c]), pyStrip kw0) := by
          rw [keywordSplitGo, if_neg hcn, htail]
        have hhere : KwAt (pre ++ c :: rest') (pre.length + 1) kw0 := by
          rw [hs, ← length_append_one pre c]
          exact (KwAt_boundary hne2 kw0).mpr
            ⟨hnl2, (keywordTail_some_iff rest' kw0).mp htail⟩
        constructor
        · intro hno
          exact absurd hhere (hno (pre.length + 1) kw0)
        · intro k kw hk hmin
          rcases le_or_lt k pre.length with hle | hgt
          · exact absurd hk (hinv k kw hle)
          · rcases Nat.lt_or_ge k (pre.length + 2) with hk2 | hk2
            · have hkeq : k = pre.length + 1 := by omega
              subst hkeq
              rw [hs, ← length_append_one pre c] at hk
              have hb := ((KwAt_boundary hne2 kw).mp hk).2
              rw [← keywordTail_some_iff, htail] at hb
              have hkw0 : kw0 = kw := by
                injection hb
              rw [hgo]
              subst hkw0
              congr 1
              rw [hs, ← length_append_one pre c, List.take_left]
            · exact absurd hhere (hmin (pre.length + 1) kw0 (by omega))

/-- keywordSplit at the top level: no decomposition anywhere means no
match. -/
theorem keywordSplit_none {s : List Char} (h : ∀ k kw, ¬ KwAt s k kw) :
    keywordSplit s = none := by
  have := keywordSplitGo_spec s [] (by simp)
    (fun k kw hk hc => by
      obtain ⟨pk, r2, -, hlen, hne, -, -⟩ := hc
      have hz : pk.length = 0 := by
        simp only [List.length_nil, Nat.le_zero] at hk
        omega
      exact hne (List.length_eq_zero.mp hz))
  exact this.1 (fun k kw => h k kw)

/-- keywordSplit at the top level: the least matching prefix determines the
result. -/
theorem keywordSplit_some {s : List Char} {k : Nat} {kw : List Char}
    (hk : KwAt s k kw) (hmin : ∀ k2 kw2, k2 < k → ¬ KwAt s k2 kw2) :
    keywordSplit s = some (pyStrip (s.take k), pyStrip kw) := by
  have := keywordSplitGo_spec s [] (by simp)
    (fun k2 kw2 hk2 hc => by
      obtain ⟨pk, r2, -, hlen, hne, -, -⟩ := hc
      have hz : pk.length = 0 := by
        simp only [List.length_nil, Nat.le_zero] at hk2
        omega
      exact hne (List.length_eq_zero.mp hz))
  exact this.2 k kw hk hmin

/-- C7 counterexample: on a fragment holding an ASCII colon before a
full-width colon, the prefix before the first colon of either kind is a, yet
the splitter returns name a:b — the full-width colon is preferred regardless
of position, contradicting the claim's split on the first colon present. -/
theorem colon_priority_cex :
    splitNameQuantity ("a:b：c".data) = ("a:b".data, "c".data) ∧
    ("a:b：c".data : List Char).takeWhile (fun x => !(x = ':' || x = '：')) = "a".data := by
  refine ⟨by decide, by decide⟩

/-- C7 amended: the splitter applies exactly one strategy with this fixed
priority and no backtracking: (a) split at the first full-width colon when
one occurs; (a') else at the first ASCII colon; (b) else at the first equals
sign; (c) else immediately before the first digit not preceded by a Latin
letter, the digit going to the quantity side; (d) else, when the fragment
decomposes as a shortest non-empty newline-free prefix, optional
white-space, a qualitative keyword, and an optional trailing ASCII closing
parenthesis, the keyword is the quantity description and the stripped
prefix the name; (e) else the whole trimmed fragment is the name and the
quantity description is empty. -/
theorem split_strategy_order (s : List Char) :
    (('：' ∈ s) →
      splitNameQuantity s = (pyStrip (s.takeWhile (fun x => !(x = '：'))),
        pyStrip ((s.dropWhile (fun x => !(x = '：'))).drop 1))) ∧
    (('：' ∉ s) → (':' ∈ s) →
      splitNameQuantity s = (pyStrip (s.takeWhile (fun x => !(x = ':'))),
        pyStrip ((s.dropWhile (fun x => !(x = ':'))).drop 1))) ∧
    (('：' ∉ s) → (':' ∉ s) → ('=' ∈ s) →
      splitNameQuantity s = (pyStrip (s.takeWhile (fun x => !(x = '='))),
        pyStrip ((s.dropWhile (fun x => !(x = '='))).drop 1))) ∧
    (('：' ∉ s) → (':' ∉ s) → ('=' ∉ s) → ∀ i, DigitOKAt s i →
      (∀ j, j < i → ¬ DigitOKAt s j) →
      splitNameQuantity s = (pyStrip (s.take i), pyStrip (s.drop i))) ∧
    (('：' ∉ s) → (':' ∉ s) → ('=' ∉ s) → (∀ i, ¬ DigitOKAt s i) →
      ∀ k kw, KwAt s k kw → (∀ k2 kw2, k2 < k → ¬ KwAt s k2 kw2) →
      splitNameQuantity s = (pyStrip (s.take k), kw)) ∧
    (('：' ∉ s) → (':' ∉ s) → ('=' ∉ s) → (∀ i, ¬ DigitOKAt s i) →
      (∀ k kw, ¬ KwAt s k kw) →
      splitNameQuantity s = (pyStrip s, [])) := by
  by_cases hs : s = []
  · subst hs
    refine ⟨fun h => absurd h (List.not_mem_nil '：'),
      fun _ h => absurd h (List.not_mem_nil ':'),
      fun _ _ h => absurd h (List.not_mem_nil '='),
      fun _ _ _ i hi _ => absurd hi (DigitOKRel_nil none i),
      fun _ _ _ _ k kw hk _ => absurd (KwAt_lt_length hk) (by simp),
      fun _ _ _ _ _ => rfl⟩
  · have hne : ¬(s.isEmpty = true) := by
      simp [List.isEmpty_eq_true, hs]
    refine ⟨?_, ?_, ?_, ?_, ?_, ?_⟩
    · intro h1
      rw [splitNameQuantity, if_neg hne, splitFirst_of_mem h1]
    · intro h1 h2
      rw [splitNameQuantity, if_neg hne, splitFirst_of_not_mem h1, splitFirst_of_mem h2]
    · intro h1 h2 h3
      rw [splitNameQuantity, if_neg hne, splitFirst_of_not_mem h1,
        splitFirst_of_not_mem h2, splitFirst_of_mem h3]
    · intro h1 h2 h3 i hi hmin
      rw [splitNameQuantity, if_neg hne, splitFirst_of_not_mem h1,
        splitFirst_of_not_mem h2, splitFirst_of_not_mem h3]
      rw [findDigitIdx, findDigitIdxGo_some s none i hi hmin]
    · intro h1 h2 h3 hno k kw hk hmin
      have hkk := hk
      obtain ⟨-, -, -, -, -, -, ws, opt, -, -, hkwmem, -⟩ := hkk
      rw [splitNameQuantity, if_neg hne, splitFirst_of_not_mem h1,
        splitFirst_of_not_mem h2, splitFirst_of_not_mem h3]
      rw [findDigitIdx, (findDigitIdxGo_none s none).mpr hno]
      rw [keywordSplit_some hk hmin]
      rw [(kwFacts kw hkwmem).2.2.1]
    · intro h1 h2 h3 hno hnokw
      rw [splitNameQuantity, if_neg hne, splitFirst_of_not_mem h1,
        splitFirst_of_not_mem h2, splitFirst_of_not_mem h3]
      rw [findDigitIdx, (findDigitIdxGo_none s none).mpr hno]
      rw [keywordSplit_none hnokw]

/-- C7 witness: the full-width-colon strategy on a concrete fragment. -/
theorem split_strategy_order_witness :
    ('：' ∈ ("鸡蛋：2个".data : List Char)) ∧
    splitNameQuantity ("鸡蛋：2个".data) =
      (pyStrip (("鸡蛋：2个".data : List Char).takeWhile (fun x => !(x = '：'))),
       pyStrip ((("鸡蛋：2个".data : List Char).dropWhile (fun x => !(x = '：'))).drop 1)) :=
  ⟨by decide, (split_strategy_order ("鸡蛋：2个".data)).1 (by decide)⟩

/-! ## C1: the Absent outcome and the title search -/

/-- The head of a dropWhile remainder fails the predicate. -/
theorem dropWhile_head_false {p : Char → Bool} : ∀ {l : List Char} {c : Char}
    {t : List Char}, l.dropWhile p = c :: t → p c = false := by
  intro l
  induction l with
  | nil => intro c t h; simp at h
  | cons a l ih =>
    intro c t h
    rw [List.dropWhile_cons] at h
    split at h
    · exact ih h
    · next hp =>
      injection h with h1 h2
      subst h1
      simpa using hp

/-- The empty document admits no title match. -/
theorem TitleMatch_nil : ¬ TitleMatch [] := by
  rintro ⟨pre, t, heq, -, -⟩
  have := List.append_eq_nil.mp heq.symm
  simp at this

/-- The backtracking tail of the title regex succeeds exactly on the
decomposition of the pattern after its hash. -/
theorem titleFromHash_isSome_iff (t : List Char) :
    (titleFromHash t).isSome = true ↔ TitleAtHead t := by
  by_cases h1 : (t.takeWhile isPySpace).isEmpty = true
  · rw [titleFromHash, if_pos h1]
    simp only [Option.isSome_none, Bool.false_eq_true, false_iff]
    rintro ⟨ws, c, rest, heq, hwsne, hsp, -⟩
    cases ws with
    | nil => exact hwsne rfl
    | cons w0 ws2 =>
      rw [heq] at h1
      have hw0 : isPySpace w0 = true := hsp w0 (List.mem_cons_self w0 ws2)
      simp [List.takeWhile_cons, hw0] at h1
  · by_cases h2 : (t.dropWhile isPySpace).isEmpty = true
    · have hteq : t = t.takeWhile isPySpace := by
        conv_lhs => rw [← List.takeWhile_append_dropWhile (p := isPySpace) (l := t)]
        rw [List.isEmpty_iff.mp h2, List.append_nil]
      rw [titleFromHash, if_neg h1]
      have h2b : (!(t.dropWhile isPySpace).isEmpty) = false := by rw [h2]; rfl
      rw [h2b]
      simp only [Bool.false_eq_true, if_false]
      by_cases h3 : ((t.takeWhile isPySpace).drop 1).any (fun c => !(c = '\n')) = true
      · rw [if_pos h3]
        simp only [Option.isSome_some, true_iff]
        obtain ⟨x, hx, hxne⟩ := List.any_eq_true.mp h3
        obtain ⟨l1, l2, hsplit⟩ := List.append_of_mem hx
        rcases hW : t.takeWhile isPySpace with - | ⟨w0, W2⟩
        · rw [hW] at h1; exact absurd rfl h1
        · have hW2 : W2 = l1 ++ x :: l2 := by
            have := hsplit
            rw [hW] at this
            simpa using this
          refine ⟨w0 :: l1, x, l2, ?_, by simp, ?_, by simpa using hxne⟩
          · rw [hteq, hW, hW2]
            simp
          · intro y hy
            have hmem : y ∈ t.takeWhile isPySpace := by
              rw [hW, hW2]
              rcases List.mem_cons.mp hy with hy1 | hy2
              · subst hy1; exact List.mem_cons_self y (l1 ++ x :: l2)
              · exact List.mem_cons_of_mem w0 (List.mem_append_left (x :: l2) hy2)
            exact List.mem_takeWhile_imp hmem
      · rw [if_neg h3]
        simp only [Option.isSome_none, Bool.false_eq_true, false_iff]
        rintro ⟨ws, c, rest, heq, hwsne, -, hcnl⟩
        apply h3
        apply List.any_eq_true.mpr
        refine ⟨c, ?_, by simpa using hcnl⟩
        rw [← hteq, heq]
        cases ws with
        | nil => exact absurd rfl hwsne
        | cons a ws2 =>
          simp
    · rcases hd : t.dropWhile isPySpace with - | ⟨d, ds⟩
      · rw [hd] at h2; exact absurd rfl h2
      · rw [titleFromHash, if_neg h1]
        have h2b : (!(t.dropWhile isPySpace).isEmpty) = true := by
          rw [hd]; rfl
        rw [h2b]
        simp only [if_true]
        simp only [Option.isSome_some, true_iff]
        refine ⟨t.takeWhile isPySpace, d, ds, ?_, ?_, ?_, ?_⟩
        · rw [← hd, List.takeWhile_append_dropWhile]
        · intro hW; rw [hW] at h1; exact absurd rfl h1
        · exact fun y hy => List.mem_takeWhile_imp hy
        · intro hdn
          have := dropWhile_head_false hd
          rw [hdn] at this
          simp [isPySpace] at this

/-- A document containing a newline splits at its first newline, the prefix
newline-free. -/
theorem split_first_nl {s : List Char} (h : '\n' ∈ s) :
    s = s.takeWhile (fun x => !(x = '\n')) ++ '\n' :: dropToAfterNl s ∧
    (∀ x ∈ s.takeWhile (fun x => !(x = '\n')), x ≠ '\n') := by
  rcases hd : s.dropWhile (fun x => !(x = '\n')) with - | ⟨d, tail⟩
  · exfalso
    have hall : s.takeWhile (fun x => !(x = '\n')) = s := by
      conv_rhs => rw [← List.takeWhile_append_dropWhile (p := fun x => !(x = '\n')) (l := s)]
      rw [hd, List.append_nil]
    have hmem : '\n' ∈ s.takeWhile (fun x => !(x = '\n')) := by rw [hall]; exact h
    have := List.mem_takeWhile_imp hmem
    simp at this
  · have hdnl : d = '\n' := by
      have := dropWhile_head_false hd
      simpa using this
    subst hdnl
    constructor
    · have hb : dropToAfterNl s = tail := by
        rw [dropToAfterNl, hd]
        rfl
      rw [hb]
      conv_lhs => rw [← List.takeWhile_append_dropWhile (p := fun x => !(x = '\n')) (l := s)]
      rw [hd]
    · intro x hx
      have := List.mem_takeWhile_imp hx
      simpa using this

/-- A title match whose caret sits after a newline transfers to the text
after the first newline (forward direction). -/
theorem later_shift_mp : ∀ (a : List Char) (q t b : List Char),
    (∀ x ∈ a, x ≠ '\n') →
    a ++ '\n' :: b = (q ++ ['\n']) ++ '#' :: t → TitleAtHead t → TitleMatch b := by
  intro a
  induction a with
  | nil =>
    intro q t b _ heq hth
    cases q with
    | nil =>
      simp only [List.nil_append, List.cons_append] at heq
      injection heq with hu h2
      exact ⟨[], t, by rw [h2]; rfl, Or.inl rfl, hth⟩
    | cons q0 q2 =>
      simp only [List.nil_append, List.cons_append, List.append_assoc] at heq
      injection heq with h1 h2
      exact ⟨q2 ++ ['\n'], t, by rw [h2]; simp, Or.inr ⟨q2, rfl⟩, hth⟩
  | cons x a2 ih =>
    intro q t b hnl heq hth
    cases q with
    | nil =>
      simp only [List.cons_append, List.nil_append] at heq
      injection heq with h1 hu
      exact absurd h1 (hnl x (List.mem_cons_self x a2))
    | cons q0 q2 =>
      simp only [List.cons_append, List.append_assoc] at heq
      injection heq with hu h2
      have := ih q2 t b (fun y hy => hnl y (List.mem_cons_of_mem x hy)) (by
        rw [h2]; simp) hth
      exact this

/-- A title match in the text after the first newline lifts to the whole
document (backward direction). -/
theorem later_shift_mpr : ∀ (a b : List Char), TitleMatch b →
    ∃ q t, a ++ '\n' :: b = (q ++ ['\n']) ++ '#' :: t ∧ TitleAtHead t := by
  rintro a b ⟨pre, t, heqb, hls, hth⟩
  rcases hls with h0 | ⟨q2, hq⟩
  · subst h0
    rw [List.nil_append] at heqb
    exact ⟨a, t, by rw [heqb]; simp, hth⟩
  · subst hq
    exact ⟨a ++ '\n' :: q2, t, by rw [heqb]; simp, hth⟩

/-- One step of the MULTILINE scan: a title match exists in the document
exactly when it matches immediately at the head hash or somewhere at a line
start further on. -/
theorem TitleMatch_cons_iff (c : Char) (rest : List Char) :
    TitleMatch (c :: rest) ↔
    ((c = '#' ∧ TitleAtHead rest) ∨ TitleMatch (dropToAfterNl (c :: rest))) := by
  by_cases hnl : '\n' ∈ (c :: rest)
  · obtain ⟨hdec, hnonl⟩ := split_first_nl hnl
    constructor
    · rintro ⟨pre, t, heq, hls, hth⟩
      rcases hls with h0 | ⟨q, hq⟩
      · subst h0
        rw [List.nil_append] at heq
        injection heq with h1 h2
        exact Or.inl ⟨h1, h2 ▸ hth⟩
      · subst hq
        right
        exact later_shift_mp ((c :: rest).takeWhile (fun x => !(x = '\n'))) q t
          (dropToAfterNl (c :: rest)) hnonl (hdec.symm.trans heq) hth
    · rintro (⟨hc, hth⟩ | hm)
      · exact ⟨[], rest, by rw [hc]; rfl, Or.inl rfl, hth⟩
      · obtain ⟨q, t, heq2, hth⟩ :=
          later_shift_mpr ((c :: rest).takeWhile (fun x => !(x = '\n')))
            (dropToAfterNl (c :: rest)) hm
        exact ⟨q ++ ['\n'], t, hdec.trans heq2, Or.inr ⟨q, rfl⟩, hth⟩
  · have hb : dropToAfterNl (c :: rest) = [] := by
      rw [dropToAfterNl]
      have hall : (c :: rest).dropWhile (fun x => !(x = '\n')) = [] := by
        rw [List.dropWhile_eq_nil_iff]
        intro x hx
        simp only [Bool.not_eq_eq_eq_not, Bool.not_true, decide_eq_false_iff_not]
        intro hxe
        exact hnl (hxe ▸ hx)
      rw [hall]
      rfl
    constructor
    · rintro ⟨pre, t, heq, hls, hth⟩
      rcases hls with h0 | ⟨q, hq⟩
      · subst h0
        rw [List.nil_append] at heq
        injection heq with h1 h2
        exact Or.inl ⟨h1, h2 ▸ hth⟩
      · exfalso
        apply hnl
        rw [heq]
        apply List.mem_append_left
        rw [hq]
        exact List.mem_append_right q (List.mem_singleton_self '\n')
    · rintro (⟨hc, hth⟩ | hm)
      · exact ⟨[], rest, by rw [hc]; rfl, Or.inl rfl, hth⟩
      · rw [hb] at hm
        exact absurd hm TitleMatch_nil

/-- Skipping to after the first newline consumes at least the head
character. -/
theorem dropToAfterNl_length (c : Char) (rest : List Char) :
    (dropToAfterNl (c :: rest)).length ≤ rest.length := by
  rw [dropToAfterNl]
  have h1 : ((c :: rest).dropWhile (fun x => !(x = '\n'))).length ≤ rest.length + 1 := by
    simpa using (List.dropWhile_sublist (l := c :: rest) (fun x => !(x = '\n'))).length_le
  rw [List.length_drop]
  omega

/-- The fueled MULTILINE scan finds a title exactly when a title match
exists, for any sufficient fuel. -/
theorem findTitleGo_iff : ∀ (n : Nat) (s : List Char), s.length ≤ n →
    ((findTitleGo n s).isSome = true ↔ TitleMatch s) := by
  intro n
  induction n with
  | zero =>
    intro s hlen
    have hs : s = [] := List.length_eq_zero.mp (Nat.le_zero.mp hlen)
    subst hs
    rw [findTitleGo]
    simp only [Option.isSome_none, Bool.false_eq_true, false_iff]
    exact TitleMatch_nil
  | succ n ih =>
    intro s hlen
    cases s with
    | nil =>
      rw [findTitleGo]
      simp only [Option.isSome_none, Bool.false_eq_true, false_iff]
      exact TitleMatch_nil
    | cons c rest =>
      have hlen2 : (dropToAfterNl (c :: rest)).length ≤ n := by
        have := dropToAfterNl_length c rest
        simp only [List.length_cons] at hlen
        omega
      rw [findTitleGo]
      by_cases hc : c = '#'
      · rw [if_pos hc]
        rcases hti : titleFromHash rest with - | ti
        · have hnth : ¬ TitleAtHead rest := by
            intro hth
            have := (titleFromHash_isSome_iff rest).mpr hth
            rw [hti] at this
            simp at this
          rw [ih (dropToAfterNl (c :: rest)) hlen2, TitleMatch_cons_iff]
          constructor
          · exact Or.inr
          · rintro (⟨-, hth⟩ | hm)
            · exact absurd hth hnth
            · exact hm
        · simp only [Option.isSome_some, true_iff]
          rw [TitleMatch_cons_iff]
          left
          refine ⟨hc, (titleFromHash_isSome_iff rest).mp ?_⟩
          rw [hti]
          rfl
      · rw [if_neg hc]
        rw [ih (dropToAfterNl (c :: rest)) hlen2, TitleMatch_cons_iff]
        constructor
        · exact Or.inr
        · rintro (⟨hc2, -⟩ | hm)
          · exact absurd hc2 hc
          · exact hm

/-- C1 amended: parse returns a record exactly when the document admits a
title match: a hash at a line start, one-or-more white-space characters
(which, since the class includes newlines, may span line breaks), then a
character other than a newline.  In particular a hash at the end of a line
followed by a non-blank line counts as a title even though no single line
looks like a heading, as the counterexample shows; with no such match parse
returns Absent, the sole rejection. -/
theorem parse_absent_iff (content rel : List Char) :
    (parseRecipeFile content rel).isSome = true ↔ TitleMatch content := by
  have hC := findTitleGo_iff content.length content (Nat.le_refl _)
  rcases hf : findTitle content with - | ti
  · rw [parseRecipeFile, hf]
    simp only [Option.isSome_none, Bool.false_eq_true, false_iff]
    intro hm
    have : (findTitle content).isSome = true := hC.mpr hm
    rw [hf] at this
    simp at this
  · rw [parseRecipeFile, hf]
    simp only [Option.isSome_some, true_iff]
    apply hC.mp
    rw [show findTitleGo content.length content = findTitle content from rfl, hf]
    rfl

/-- C1 counterexample: a document in which no line is a top-level heading
(hash, white-space, title text within one line) that parse nevertheless
accepts, because the regex white-space crosses the line break. -/
theorem no_heading_line_but_parsed_cex :
    ((splitLines ("#\nTitle".data)).all (fun l => !(claimHeadingLine l))) = true ∧
    (parseRecipeFile ("#\nTitle".data) ("dessert/x.md".data)).isSome = true := by
  refine ⟨by decide, by decide⟩

end Recipes
